import Mathlib

/-!
Verification of the core algorithms of the repository: the ratio-pattern
weight rescaler (`rescale_weights_by_ratio_pattern`, `conservative.py`) and
the realized-volatility / leverage engine (`RealizedVolatilityCalculator`).

Dates are modelled as integers (trading-day ordinals), float values as
rationals; missing values (`NaN`) are modelled with `Option` where the code
tests for them (`pd.isna`) and with an explicit IEEE-style value domain
`PFloat` where the code lets them propagate (division / clip / fillna).
-/

/-- A row of the weight DataFrame `df1`: columns `date` and `weight`. -/
structure WRow where
  date : ℤ
  weight : ℚ
deriving DecidableEq, Repr

/-- A row of the result DataFrame: `df1` plus the `rescaled_weight` column. -/
structure RRow where
  date : ℤ
  weight : ℚ
  rescaled_weight : ℚ
deriving DecidableEq, Repr

/-- A row of the ratio DataFrame `df2`: columns `date` and `ratio`. -/
structure Event where
  date : ℤ
  ratio : ℚ
deriving DecidableEq, Repr

/-- Insert an event into a list sorted by date in descending order
(`df2.sort_values('date', ascending=False)`). -/
def insertDesc (e : Event) : List Event → List Event
  | [] => [e]
  | x :: xs => if x.date < e.date then e :: x :: xs else x :: insertDesc e xs

/-- Sort events by date in descending order (latest to earliest). -/
def sortEventsDesc : List Event → List Event
  | [] => []
  | e :: es => insertDesc e (sortEventsDesc es)

/-- `result_df.loc[(date >= earlier) & (date < later), 'rescaled_weight'] *= 4/3`:
multiply the rescaled weight of every row in `[lo, hi)` by `4/3`. -/
def applyMask (lo hi : ℤ) (rows : List RRow) : List RRow :=
  rows.map fun r =>
    if lo ≤ r.date ∧ r.date < hi then
      { r with rescaled_weight := r.rescaled_weight * (4/3 : ℚ) }
    else r

/-- The inner `for j` loop: first event after the current position whose date
is not in `used_dates` and whose ratio is negative. -/
def findNextNegative (used : List ℤ) (rest : List Event) : Option Event :=
  rest.find? fun e => match e with
    | ⟨d2, q2⟩ => !(used.contains d2) && decide (q2 < 0)

/-- The `while i < len(df2_sorted)` loop of `rescale_weights_by_ratio_pattern`:
walk the descending-sorted events, skip used dates and non-positive ratios,
pair each positive event with the next unused negative event, mark the two
endpoint dates used and multiply weights over `[earlier, later)` by `4/3`.
Also returns the list of applied `(earlier, later)` interval pairs (the code
prints each as `[{earlier}, {later})`). -/
def processEvents : List Event → List ℤ → List RRow → List RRow × List (ℤ × ℤ)
  | [], _, rows => (rows, [])
  | ⟨d, q⟩ :: rest, used, rows =>
    if d ∈ used then processEvents rest used rows
    else if q ≤ 0 then processEvents rest used rows
    else
      match findNextNegative used rest with
      | none => processEvents rest used rows
      | some ⟨d2, _⟩ =>
        let out := processEvents rest (d :: d2 :: used) (applyMask d2 d rows)
        (out.1, (d2, d) :: out.2)

/-- `rescale_weights_by_ratio_pattern(df1, df2)` (`conservative.py`): copy
`df1`, initialize `rescaled_weight` with `weight`, then process the ratio
events latest-to-earliest.  The second component collects the applied
intervals `(earlier_date, later_date)`, each meaning the half-open span
`[earlier_date, later_date)`. -/
def rescale_weights_by_ratio_pattern (df1 : List WRow) (df2 : List Event) :
    List RRow × List (ℤ × ℤ) :=
  processEvents (sortEventsDesc df2) []
    (df1.map fun r => ⟨r.date, r.weight, r.weight⟩)

/-- Number of applied intervals `[lo, hi)` that cover a date. -/
def countCover (pairs : List (ℤ × ℤ)) (d : ℤ) : ℕ :=
  (pairs.filter fun p => decide (p.1 ≤ d) && decide (d < p.2)).length

/-- The endpoint dates of a list of interval pairs, in order. -/
def pairDates : List (ℤ × ℤ) → List ℤ
  | [] => []
  | p :: ps => p.1 :: p.2 :: pairDates ps

/-- Look up the `rescaled_weight` of the (first) row with a given date. -/
def lookupRescaled (rows : List RRow) (d : ℤ) : Option ℚ :=
  (rows.find? fun r => r.date = d).map fun r => r.rescaled_weight

-- Facts about `processEvents` used by several claims.

theorem applyMask_eq_map (lo hi : ℤ) (rows : List RRow) :
    applyMask lo hi rows = rows.map fun r =>
      if lo ≤ r.date ∧ r.date < hi then
        { r with rescaled_weight := r.rescaled_weight * (4/3 : ℚ) }
      else r := rfl

theorem countCover_cons (p : ℤ × ℤ) (ps : List (ℤ × ℤ)) (d : ℤ) :
    countCover (p :: ps) d =
      (if p.1 ≤ d ∧ d < p.2 then 1 else 0) + countCover ps d := by
  by_cases h : p.1 ≤ d ∧ d < p.2
  · simp [countCover, List.filter_cons, h.1, h.2, Nat.add_comm]
  · rcases not_and_or.mp h with h1 | h1 <;> simp [countCover, List.filter_cons, h, h1]

theorem processEvents_fst (evs : List Event) (used : List ℤ) (rows : List RRow) :
    (processEvents evs used rows).1 = rows.map fun r =>
      { r with rescaled_weight :=
          r.rescaled_weight * (4/3 : ℚ) ^ countCover (processEvents evs used rows).2 r.date } := by
  induction evs generalizing used rows with
  | nil =>
    simp [processEvents, countCover]
  | cons e rest ih =>
    obtain ⟨d, q⟩ := e
    by_cases hd : d ∈ used
    · simpa [processEvents, hd] using ih used rows
    · by_cases hq : q ≤ 0
      · simpa [processEvents, hd, hq] using ih used rows
      · rcases hfind : findNextNegative used rest with _ | ⟨d2, q2⟩
        · simpa [processEvents, hd, hq, hfind] using ih used rows
        · have hmain := ih (d :: d2 :: used) (applyMask d2 d rows)
          simp only [processEvents, if_neg hd, if_neg hq, hfind]
          rw [hmain, applyMask_eq_map, List.map_map]
          apply List.map_congr_left
          intro r _
          simp only [Function.comp]
          by_cases hcov : d2 ≤ r.date ∧ r.date < d
          · rw [if_pos hcov]
            rw [countCover_cons, if_pos hcov]
            simp only [RRow.mk.injEq, pow_add, pow_one]
            refine ⟨trivial, trivial, by ring⟩
          · rw [if_neg hcov]
            rw [countCover_cons, if_neg hcov]
            simp

theorem countCover_nil_of_not_mem (pairs : List (ℤ × ℤ)) (d : ℤ)
    (h : ∀ p ∈ pairs, ¬(p.1 ≤ d ∧ d < p.2)) : countCover pairs d = 0 := by
  unfold countCover
  rw [List.length_eq_zero]
  apply List.filter_eq_nil_iff.mpr
  intro p hp
  have := h p hp
  rcases not_and_or.mp this with h1 | h1 <;> simp [h1]

-- Permutation and no-duplicate facts about the descending sort.

theorem insertDesc_perm (e : Event) (l : List Event) :
    (insertDesc e l).Perm (e :: l) := by
  induction l with
  | nil => exact List.Perm.refl _
  | cons x xs ih =>
    unfold insertDesc
    by_cases h : x.date < e.date
    · simp [h]
    · simp only [if_neg h]
      exact (List.Perm.cons x ih).trans (List.Perm.swap e x xs)

theorem sortEventsDesc_perm (l : List Event) : (sortEventsDesc l).Perm l := by
  induction l with
  | nil => exact List.Perm.refl _
  | cons e es ih =>
    exact (insertDesc_perm e (sortEventsDesc es)).trans (List.Perm.cons e ih)

theorem processEvents_pairDates (evs : List Event) (used : List ℤ) (rows : List RRow)
    (hnd : (evs.map fun e => e.date).Nodup) :
    (pairDates (processEvents evs used rows).2).Nodup ∧
      ∀ x ∈ pairDates (processEvents evs used rows).2,
        x ∉ used ∧ x ∈ evs.map fun e => e.date := by
  induction evs generalizing used rows with
  | nil => simp [processEvents, pairDates]
  | cons e rest ih =>
    obtain ⟨d, q⟩ := e
    have hnd' : (rest.map fun e => e.date).Nodup := (List.nodup_cons.mp hnd).2
    have hdn : (d : ℤ) ∉ rest.map fun e => e.date := by
      have := (List.nodup_cons.mp hnd).1
      simpa using this
    by_cases hd : d ∈ used
    · have h := ih used rows hnd'
      refine ⟨by simpa [processEvents, hd] using h.1, ?_⟩
      intro x hx
      have hx' := h.2 x (by simpa [processEvents, hd] using hx)
      exact ⟨hx'.1, List.mem_cons_of_mem _ hx'.2⟩
    · by_cases hq : q ≤ 0
      · have h := ih used rows hnd'
        refine ⟨by simpa [processEvents, hd, hq] using h.1, ?_⟩
        intro x hx
        have hx' := h.2 x (by simpa [processEvents, hd, hq] using hx)
        exact ⟨hx'.1, List.mem_cons_of_mem _ hx'.2⟩
      · rcases hfind : findNextNegative used rest with _ | ⟨d2, q2⟩
        · have h := ih used rows hnd'
          refine ⟨by simpa [processEvents, hd, hq, hfind] using h.1, ?_⟩
          intro x hx
          have hx' := h.2 x (by simpa [processEvents, hd, hq, hfind] using hx)
          exact ⟨hx'.1, List.mem_cons_of_mem _ hx'.2⟩
        · have hmem : (⟨d2, q2⟩ : Event) ∈ rest := List.mem_of_find?_eq_some hfind
          have hpred : d2 ∉ used ∧ q2 < 0 := by
            simpa using List.find?_some hfind
          have hd2used : d2 ∉ used := hpred.1
          have hd2rest : (d2 : ℤ) ∈ rest.map fun e => e.date :=
            List.mem_map_of_mem _ hmem
          have hne : d ≠ d2 := fun hdd => hdn (hdd ▸ hd2rest)
          have h := ih (d :: d2 :: used) (applyMask d2 d rows) hnd'
          have hout : processEvents (⟨d, q⟩ :: rest) used rows =
              ((processEvents rest (d :: d2 :: used) (applyMask d2 d rows)).1,
               (d2, d) :: (processEvents rest (d :: d2 :: used) (applyMask d2 d rows)).2) := by
            simp [processEvents, hd, hq, hfind]
          rw [hout]
          have htail := h.2
          constructor
          · simp only [pairDates, List.nodup_cons]
            refine ⟨?_, ?_, h.1⟩
            · intro hc
              rcases List.mem_cons.mp hc with hc | hc
              · exact hne hc.symm
              · exact ((htail d2 hc).1) (by simp)
            · intro hc
              exact ((htail d hc).1) (by simp)
          · intro x hx
            simp only [pairDates, List.mem_cons] at hx
            rcases hx with rfl | rfl | hx
            · exact ⟨hd2used, List.mem_cons_of_mem _ hd2rest⟩
            · exact ⟨hd, by simp⟩
            · have hx' := htail x hx
              refine ⟨fun hc => hx'.1 (by simp [hc]), List.mem_cons_of_mem _ hx'.2⟩

-- Concrete inputs used by the rescaler claims.

/-- Ten consecutive daily rows, each with weight `10.0` (the C1 scenario). -/
def tenDayWeights : List WRow :=
  [⟨1, 10⟩, ⟨2, 10⟩, ⟨3, 10⟩, ⟨4, 10⟩, ⟨5, 10⟩,
   ⟨6, 10⟩, ⟨7, 10⟩, ⟨8, 10⟩, ⟨9, 10⟩, ⟨10, 10⟩]

/-- The C1 event list `[(day3, -1.0), (day7, +1.0)]`. -/
def c1Events : List Event := [⟨3, -1⟩, ⟨7, 1⟩]

/-- C1: the claim says days 1-3 keep weight `10`, days 4-7 become `40/3`, and
the reported interval is `(day3, day7]`.  On the code the interval applied is
`[day3, day7)`: day 3 IS rescaled and day 7 is NOT, so the claimed output is
wrong at both boundary days. -/
theorem c1_boundary_counterexample :
    ¬ (lookupRescaled (rescale_weights_by_ratio_pattern tenDayWeights c1Events).1 3 =
         some 10 ∧
       lookupRescaled (rescale_weights_by_ratio_pattern tenDayWeights c1Events).1 7 =
         some (40/3)) := by
  norm_num [rescale_weights_by_ratio_pattern, processEvents, sortEventsDesc, insertDesc,
    findNextNegative, applyMask, lookupRescaled, pairDates, List.find?, tenDayWeights, c1Events]

/-- C1 (amended): for the C1 scenario the code pairs `(day7, +1.0)` with
`(day3, -1.0)` and rescales the half-open span `[day3, day7)`: days 3-6 get
`10 * 4/3 = 40/3`, every other day keeps `10`; the single applied interval is
`(3, 7)` meaning `[day3, day7)` (the function returns no interval list; it
only prints the interval in this form). -/
theorem c1_boundary_amended :
    (rescale_weights_by_ratio_pattern tenDayWeights c1Events).1 =
      [⟨1, 10, 10⟩, ⟨2, 10, 10⟩, ⟨3, 10, 40/3⟩, ⟨4, 10, 40/3⟩, ⟨5, 10, 40/3⟩,
       ⟨6, 10, 40/3⟩, ⟨7, 10, 10⟩, ⟨8, 10, 10⟩, ⟨9, 10, 10⟩, ⟨10, 10, 10⟩] ∧
    (rescale_weights_by_ratio_pattern tenDayWeights c1Events).2 = [(3, 7)] := by
  norm_num [rescale_weights_by_ratio_pattern, processEvents, sortEventsDesc, insertDesc,
    findNextNegative, applyMask, lookupRescaled, pairDates, List.find?, tenDayWeights, c1Events]

/-- Ten daily rows with weight `1` and the event list whose dates are
`1, 3, 5, 10` with signs `-,-,+,+` (sorted descending: `10+, 5+, 3-, 1-`). -/
def c2Weights : List WRow :=
  [⟨1, 1⟩, ⟨2, 1⟩, ⟨3, 1⟩, ⟨4, 1⟩, ⟨5, 1⟩, ⟨6, 1⟩, ⟨7, 1⟩, ⟨8, 1⟩, ⟨9, 1⟩, ⟨10, 1⟩]

/-- Events for the C2 counterexample. -/
def c2Events : List Event := [⟨1, -1⟩, ⟨3, -1⟩, ⟨5, 1⟩, ⟨10, 1⟩]

/-- C2: the code marks only the two endpoint dates of a pair as used, not the
events inside the span.  Concretely, the first applied interval is
`[3, 10)`; the positive event at date `5` lies strictly inside it yet starts
the second interval `[1, 5)`, and the rows at dates `3` and `4` are multiplied
by `4/3` twice (`16/9`), refuting both parts of the claim. -/
theorem c2_interior_events_counterexample :
    (rescale_weights_by_ratio_pattern c2Weights c2Events).2 = [(3, 10), (1, 5)] ∧
    ((3 : ℤ) ≤ 5 ∧ (5 : ℤ) < 10) ∧
    lookupRescaled (rescale_weights_by_ratio_pattern c2Weights c2Events).1 3 =
      some (16/9) ∧
    (16/9 : ℚ) ≠ 1 ∧ (16/9 : ℚ) ≠ 4/3 := by
  norm_num [rescale_weights_by_ratio_pattern, processEvents, sortEventsDesc, insertDesc,
    findNextNegative, applyMask, lookupRescaled, pairDates, List.find?, c2Weights, c2Events]

/-- C2 (amended): only the two endpoint dates of each matched pair are marked
used.  Provided the event dates are distinct, no event date ever bounds a
second interval (the endpoint dates of the applied intervals are pairwise
distinct); events strictly inside an applied span are not consumed and may
start further, overlapping intervals, so a date's weight can be multiplied by
`4/3` more than once. -/
theorem c2_endpoints_used_amended (df1 : List WRow) (df2 : List Event)
    (h : (df2.map fun e => e.date).Nodup) :
    (pairDates (rescale_weights_by_ratio_pattern df1 df2).2).Nodup := by
  have hs : ((sortEventsDesc df2).map fun e => e.date).Nodup := by
    have hperm := (sortEventsDesc_perm df2).map fun e => e.date
    exact hperm.nodup_iff.mpr h
  exact (processEvents_pairDates (sortEventsDesc df2) []
    (df1.map fun r => ⟨r.date, r.weight, r.weight⟩) hs).1

/-- Witness for the amended C2 theorem at the concrete C2 scenario. -/
theorem c2_endpoints_used_amended_witness :
    ((c2Events.map fun e => e.date).Nodup) ∧
      (pairDates (rescale_weights_by_ratio_pattern c2Weights c2Events).2).Nodup :=
  ⟨by decide, c2_endpoints_used_amended c2Weights c2Events (by decide)⟩

/-- The C4 scenario: two weight rows and the events
`[(2024-01-01, +0.3), (2024-03-01, -0.5)]` (positive chronologically first). -/
def c4Weights : List WRow := [⟨20240101, 10⟩, ⟨20240301, 10⟩]

/-- Events for the C4 scenario. -/
def c4Events : List Event := [⟨20240101, 3/10⟩, ⟨20240301, -1/2⟩]

/-- C4: the claim says the pair is matched and `[2024-01-01, 2024-03-01)` is
applied, rescaling the `2024-01-01` row to `10 * 4/3`.  On the code no pair is
matched at all (a positive event is only ever paired with a chronologically
EARLIER negative event), so the row keeps weight `10`. -/
theorem c4_positive_first_counterexample :
    ¬ lookupRescaled (rescale_weights_by_ratio_pattern c4Weights c4Events).1 20240101 =
        some (10 * (4/3)) := by
  norm_num [rescale_weights_by_ratio_pattern, processEvents, sortEventsDesc, insertDesc,
    findNextNegative, applyMask, lookupRescaled, pairDates, List.find?, c4Weights, c4Events]

/-- C4 (amended): with a positive event chronologically first and the negative
one later, the reverse-order scan skips the negative event (it is not a
positive starting point) and the positive event finds no negative event after
it in the descending order, so no interval is applied and both rows keep
their original weight. -/
theorem c4_positive_first_amended :
    (rescale_weights_by_ratio_pattern c4Weights c4Events).1 =
      [⟨20240101, 10, 10⟩, ⟨20240301, 10, 10⟩] ∧
    (rescale_weights_by_ratio_pattern c4Weights c4Events).2 = [] := by
  norm_num [rescale_weights_by_ratio_pattern, processEvents, sortEventsDesc, insertDesc,
    findNextNegative, applyMask, lookupRescaled, pairDates, List.find?, c4Weights, c4Events]

/-- C10: every output row's `rescaled_weight` equals its `weight` times
`(4/3) ^ k` for some natural `k` (the only factor ever applied is `4/3`), and
a row whose date is covered by no applied interval keeps its weight. -/
theorem rescale_weight_pow_four_thirds (df1 : List WRow) (df2 : List Event)
    (r : RRow) (hr : r ∈ (rescale_weights_by_ratio_pattern df1 df2).1) :
    ∃ k : ℕ, r.rescaled_weight = r.weight * (4/3 : ℚ) ^ k ∧
      ((∀ p ∈ (rescale_weights_by_ratio_pattern df1 df2).2,
          ¬(p.1 ≤ r.date ∧ r.date < p.2)) → r.rescaled_weight = r.weight) := by
  have h := processEvents_fst (sortEventsDesc df2) []
    (df1.map fun w => ⟨w.date, w.weight, w.weight⟩)
  unfold rescale_weights_by_ratio_pattern at hr ⊢
  rw [h, List.map_map] at hr
  obtain ⟨v, hv, rfl⟩ := List.mem_map.mp hr
  dsimp only [Function.comp]
  refine ⟨countCover (processEvents (sortEventsDesc df2) []
      (df1.map fun r => ⟨r.date, r.weight, r.weight⟩)).2 v.date, rfl, ?_⟩
  intro hout
  have h0 := countCover_nil_of_not_mem _ _ hout
  rw [h0, pow_zero, mul_one]

/-- Witness for C10 at a concrete input with one row and no events. -/
theorem rescale_weight_pow_four_thirds_witness :
    ((⟨1, 10, 10⟩ : RRow) ∈ (rescale_weights_by_ratio_pattern [⟨1, 10⟩] []).1) ∧
      ∃ k : ℕ, (10 : ℚ) = 10 * (4/3 : ℚ) ^ k ∧
        ((∀ p ∈ (rescale_weights_by_ratio_pattern [⟨1, 10⟩] []).2,
            ¬(p.1 ≤ (1 : ℤ) ∧ (1 : ℤ) < p.2)) → (10 : ℚ) = 10) :=
  ⟨by norm_num [rescale_weights_by_ratio_pattern, processEvents, sortEventsDesc, insertDesc,
    findNextNegative, applyMask, lookupRescaled, pairDates, List.find?], rescale_weight_pow_four_thirds [⟨1, 10⟩] [] ⟨1, 10, 10⟩
    (by norm_num [rescale_weights_by_ratio_pattern, processEvents, sortEventsDesc, insertDesc,
    findNextNegative, applyMask, lookupRescaled, pairDates, List.find?])⟩

-- RealizedVolatilityCalculator: the EWMA variance recursion.

/-- The `for i in range(1, len(log_returns))` loop of `calculate_ewma_variance`:
from the previous variance `v`, emit `v` unchanged when the return is missing
(`pd.isna`), else `lambda_val * v + (1 - lambda_val) * r^2`. -/
def ewmaSteps (lambda_val v : ℚ) : List (Option ℚ) → List ℚ
  | [] => []
  | none :: rest => v :: ewmaSteps lambda_val v rest
  | some r :: rest =>
    (lambda_val * v + (1 - lambda_val) * r ^ 2) ::
      ewmaSteps lambda_val (lambda_val * v + (1 - lambda_val) * r ^ 2) rest

/-- `calculate_ewma_variance(log_returns, initial_variance, lambda_val)`:
entry 0 is the initial variance; every later entry follows the EWMA recursion,
carrying the previous variance forward when the return is missing. -/
def calculate_ewma_variance (log_returns : List (Option ℚ))
    (initial_variance lambda_val : ℚ) : List ℚ :=
  match log_returns with
  | [] => []
  | _ :: rest => initial_variance :: ewmaSteps lambda_val initial_variance rest

theorem ewmaSteps_length (lambda_val v : ℚ) (l : List (Option ℚ)) :
    (ewmaSteps lambda_val v l).length = l.length := by
  induction l generalizing v with
  | nil => rfl
  | cons x xs ih => cases x <;> simp [ewmaSteps, ih]

theorem ewmaSteps_spec (lambda_val : ℚ) (rest : List (Option ℚ)) :
    ∀ (v : ℚ) (i : ℕ), i < rest.length →
      (rest.getD i none = none →
        (ewmaSteps lambda_val v rest).getD i 0 =
          (v :: ewmaSteps lambda_val v rest).getD i 0) ∧
      (∀ r : ℚ, rest.getD i none = some r →
        (ewmaSteps lambda_val v rest).getD i 0 =
          lambda_val * ((v :: ewmaSteps lambda_val v rest).getD i 0)
            + (1 - lambda_val) * r ^ 2) := by
  induction rest with
  | nil => intro v i hi; simp at hi
  | cons x xs ih =>
    intro v i hi
    cases i with
    | zero =>
      cases x with
      | none => exact ⟨fun _ => rfl, fun r hr => by simp at hr⟩
      | some r0 =>
        refine ⟨fun hc => by simp at hc, fun r hr => ?_⟩
        have : r0 = r := by simpa using hr
        subst this
        rfl
    | succ j =>
      have hj : j < xs.length := by simpa using hi
      cases x with
      | none => simpa [ewmaSteps] using ih v j hj
      | some r0 =>
        simpa [ewmaSteps] using
          ih (lambda_val * v + (1 - lambda_val) * r0 ^ 2) j hj

/-- C3: `calculate_ewma_variance` returns one variance per input entry, the
first equal to the initial variance; each later entry equals
`lambda * prev + (1 - lambda) * return^2` when the return is defined and
carries the previous variance forward unchanged when it is missing. -/
theorem calculate_ewma_variance_spec (log_returns : List (Option ℚ))
    (initial_variance lambda_val : ℚ) :
    (calculate_ewma_variance log_returns initial_variance lambda_val).length =
        log_returns.length ∧
    (0 < log_returns.length →
      (calculate_ewma_variance log_returns initial_variance lambda_val).getD 0 0 =
        initial_variance) ∧
    (∀ i : ℕ, i + 1 < log_returns.length →
      (log_returns.getD (i + 1) none = none →
        (calculate_ewma_variance log_returns initial_variance lambda_val).getD (i + 1) 0 =
          (calculate_ewma_variance log_returns initial_variance lambda_val).getD i 0) ∧
      (∀ r : ℚ, log_returns.getD (i + 1) none = some r →
        (calculate_ewma_variance log_returns initial_variance lambda_val).getD (i + 1) 0 =
          lambda_val *
              ((calculate_ewma_variance log_returns initial_variance lambda_val).getD i 0)
            + (1 - lambda_val) * r ^ 2)) := by
  cases log_returns with
  | nil => exact ⟨rfl, fun h => by simp at h, fun i hi => by simp at hi⟩
  | cons x rest =>
    refine ⟨by simp [calculate_ewma_variance, ewmaSteps_length], fun _ => rfl, ?_⟩
    intro i hi
    have hi' : i < rest.length := by simpa using hi
    have h := ewmaSteps_spec lambda_val rest initial_variance i hi'
    exact h

/-- Witness for C3 on the concrete series `[some 0, some 1, none]` with
initial variance `2` and decay `1/2`. -/
theorem calculate_ewma_variance_spec_witness :
    (0 < ([some 0, some 1, none] : List (Option ℚ)).length) ∧
    (calculate_ewma_variance [some 0, some 1, none] 2 (1/2)).getD 0 0 = 2 ∧
    (calculate_ewma_variance [some 0, some 1, none] 2 (1/2)).getD 2 0 =
      (calculate_ewma_variance [some 0, some 1, none] 2 (1/2)).getD 1 0 ∧
    (calculate_ewma_variance [some 0, some 1, none] 2 (1/2)).getD 1 0 =
      (1/2) * ((calculate_ewma_variance [some 0, some 1, none] 2 (1/2)).getD 0 0)
        + (1 - 1/2) * (1 : ℚ) ^ 2 :=
  ⟨by norm_num,
   (calculate_ewma_variance_spec [some 0, some 1, none] 2 (1/2)).2.1 (by norm_num),
   ((calculate_ewma_variance_spec [some 0, some 1, none] 2 (1/2)).2.2 1
      (by norm_num)).1 rfl,
   ((calculate_ewma_variance_spec [some 0, some 1, none] 2 (1/2)).2.2 0
      (by norm_num)).2 1 rfl⟩

-- RealizedVolatilityCalculator: the seed (initial) variance at T0.

/-- `log_returns.iloc[max(0, T0_idx - N + 1) : T0_idx + 1].dropna()`: the
available historical returns in the `N`-observation window ending at `T0_idx`
(natural subtraction realizes the `max(0, ...)`). -/
def histReturns (log_returns : List (Option ℚ)) (T0_idx N : ℕ) : List ℚ :=
  ((log_returns.take (T0_idx + 1)).drop (T0_idx + 1 - N)).filterMap id

/-- The unnormalized exponential weights
`alpha_i = (1 - lambda_val) * lambda_val ^ (k - 1 - i)` for `k` available
returns (`time_from_T0 = len - 1 - i`). -/
def initWeights (lambda_val : ℚ) (k : ℕ) : List ℚ :=
  (List.range k).map fun i => (1 - lambda_val) * lambda_val ^ (k - 1 - i)

/-- The exponential weights normalized by their sum (`w / weighting_factor`). -/
def normInitWeights (lambda_val : ℚ) (k : ℕ) : List ℚ :=
  (initWeights lambda_val k).map fun w => w / (initWeights lambda_val k).sum

/-- `calculate_initial_variance(log_returns, T0_idx)`: `0.0` when no return is
available, else the normalized exponentially-weighted sum of the squared
available returns. -/
def calculate_initial_variance (log_returns : List (Option ℚ)) (T0_idx N : ℕ)
    (lambda_val : ℚ) : ℚ :=
  let historical_returns := histReturns log_returns T0_idx N
  if historical_returns.length = 0 then 0
  else
    let weights := initWeights lambda_val historical_returns.length
    let weighting_factor := weights.sum
    let weights2 :=
      if 0 < weighting_factor then weights.map fun w => w / weighting_factor
      else weights
    ((weights2.zip historical_returns).map fun p => p.1 * p.2 ^ 2).sum

theorem list_sum_map_div (l : List ℚ) (c : ℚ) :
    (l.map fun x => x / c).sum = l.sum / c := by
  induction l with
  | nil => simp
  | cons x xs ih => simp [ih, add_div]

theorem initWeights_sum_pos (lambda_val : ℚ) (k : ℕ)
    (h1 : 0 < lambda_val) (h2 : lambda_val < 1) (hk : 0 < k) :
    0 < (initWeights lambda_val k).sum := by
  apply List.sum_pos
  · intro w hw
    obtain ⟨i, _, rfl⟩ := List.mem_map.mp hw
    have hl : 0 < 1 - lambda_val := by linarith
    exact mul_pos hl (pow_pos h1 _)
  · have : (initWeights lambda_val k).length = k := by
      simp [initWeights]
    intro hnil
    rw [hnil] at this
    simp at this
    omega

/-- C7: the seed-variance window holds at most `N` returns; with at least one
available return the normalized exponential weights sum to exactly `1` and the
seed variance is their weighted sum of squared returns; with no available
return the seed variance is `0.0`. -/
theorem calculate_initial_variance_spec (log_returns : List (Option ℚ))
    (T0_idx N : ℕ) (lambda_val : ℚ)
    (h1 : 0 < lambda_val) (h2 : lambda_val < 1) :
    (histReturns log_returns T0_idx N).length ≤ N ∧
    (histReturns log_returns T0_idx N = [] →
      calculate_initial_variance log_returns T0_idx N lambda_val = 0) ∧
    (histReturns log_returns T0_idx N ≠ [] →
      (normInitWeights lambda_val (histReturns log_returns T0_idx N).length).sum = 1 ∧
      calculate_initial_variance log_returns T0_idx N lambda_val =
        (((normInitWeights lambda_val (histReturns log_returns T0_idx N).length).zip
            (histReturns log_returns T0_idx N)).map fun p => p.1 * p.2 ^ 2).sum) := by
  refine ⟨?_, ?_, ?_⟩
  · have hf : (histReturns log_returns T0_idx N).length ≤
        ((log_returns.take (T0_idx + 1)).drop (T0_idx + 1 - N)).length :=
      List.length_filterMap_le _ _
    have hd : ((log_returns.take (T0_idx + 1)).drop (T0_idx + 1 - N)).length =
        (log_returns.take (T0_idx + 1)).length - (T0_idx + 1 - N) :=
      List.length_drop _ _
    have ht : (log_returns.take (T0_idx + 1)).length ≤ T0_idx + 1 := by
      simp [List.length_take]
    omega
  · intro hnil
    unfold calculate_initial_variance
    rw [hnil]
    simp
  · intro hne
    have hk : 0 < (histReturns log_returns T0_idx N).length :=
      List.length_pos.mpr hne
    have hs := initWeights_sum_pos lambda_val (histReturns log_returns T0_idx N).length
      h1 h2 hk
    constructor
    · unfold normInitWeights
      rw [list_sum_map_div]
      exact div_self (ne_of_gt hs)
    · have hlen : ¬(histReturns log_returns T0_idx N).length = 0 := by omega
      unfold calculate_initial_variance
      simp only [hlen, hs, if_true, if_false, ite_true, ite_false, normInitWeights]

/-- Witness for C7 on the two-return series `[some 1, some 2]` with
`T0_idx = 1`, `N = 2`, `lambda = 1/2`. -/
theorem calculate_initial_variance_spec_witness :
    (0 < (1/2 : ℚ)) ∧ ((1/2 : ℚ) < 1) ∧
    (histReturns [some 1, some 2] 1 2 ≠ []) ∧
    (normInitWeights (1/2) (histReturns [some 1, some 2] 1 2).length).sum = 1 :=
  ⟨by norm_num, by norm_num, by decide,
   ((calculate_initial_variance_spec [some 1, some 2] 1 2 (1/2)
      (by norm_num) (by norm_num)).2.2 (by decide)).1⟩

-- RealizedVolatilityCalculator.__init__ parameter validation.

/-- The validation sequence of `RealizedVolatilityCalculator.__init__` in the
main variant: the four numeric contract checks followed by the logical
combination check on the return-construction flags. -/
def initValidate (lambda_s lambda_l : ℚ) (n N : ℤ)
    (use_log_returns use_individual_log_returns : Bool) : Except String Unit :=
  if ¬(0 < lambda_s ∧ lambda_s < 1) then
    Except.error "lambda_s must be between 0 and 1"
  else if ¬(0 < lambda_l ∧ lambda_l < 1) then
    Except.error "lambda_l must be between 0 and 1"
  else if n < 1 then Except.error "n must be at least 1"
  else if N < 1 then Except.error "N must be at least 1"
  else if use_individual_log_returns && !use_log_returns then
    Except.error "use_individual_log_returns requires use_log_returns=True"
  else Except.ok ()

/-- The validation sequence of `__init__` in the `a.py` variant, which has no
return-construction combination check. -/
def initValidateA (lambda_s lambda_l : ℚ) (n N : ℤ) : Except String Unit :=
  if ¬(0 < lambda_s ∧ lambda_s < 1) then
    Except.error "lambda_s must be between 0 and 1"
  else if ¬(0 < lambda_l ∧ lambda_l < 1) then
    Except.error "lambda_l must be between 0 and 1"
  else if n < 1 then Except.error "n must be at least 1"
  else if N < 1 then Except.error "N must be at least 1"
  else Except.ok ()

/-- C8: the default decay factors `0.94`, `0.97` and `n = 1`, `N = 60` satisfy
every numeric constraint of the claim, yet construction with
`use_log_returns=False` and `use_individual_log_returns=True` still raises, so
"construction succeeds for every parameter combination satisfying the numeric
constraints" is false for the main variant. -/
theorem initValidate_counterexample :
    (0 < (94/100 : ℚ) ∧ (94/100 : ℚ) < 1) ∧
    (0 < (97/100 : ℚ) ∧ (97/100 : ℚ) < 1) ∧
    ¬((1 : ℤ) < 1) ∧ ¬((60 : ℤ) < 1) ∧
    initValidate (94/100) (97/100) 1 60 false true =
      Except.error "use_individual_log_returns requires use_log_returns=True" := by
  norm_num [initValidate]

/-- C8 (amended): construction succeeds iff the four numeric constraints hold
AND (in the main variant) `use_individual_log_returns` is not set without
`use_log_returns`; the `a.py` variant checks exactly the four numeric
constraints. -/
theorem initValidate_iff (lambda_s lambda_l : ℚ) (n N : ℤ)
    (use_log_returns use_individual_log_returns : Bool) :
    (initValidate lambda_s lambda_l n N use_log_returns use_individual_log_returns =
        Except.ok () ↔
      ((0 < lambda_s ∧ lambda_s < 1) ∧ (0 < lambda_l ∧ lambda_l < 1) ∧
        1 ≤ n ∧ 1 ≤ N ∧
        (use_individual_log_returns = true → use_log_returns = true))) ∧
    (initValidateA lambda_s lambda_l n N = Except.ok () ↔
      ((0 < lambda_s ∧ lambda_s < 1) ∧ (0 < lambda_l ∧ lambda_l < 1) ∧
        1 ≤ n ∧ 1 ≤ N)) := by
  unfold initValidate initValidateA
  constructor <;>
    · split_ifs <;> simp_all

-- `calculate_with_leverage`: IEEE-style float semantics for division by zero,
-- clip and fillna (pandas lets inf/NaN propagate instead of raising).

/-- An IEEE-754-style scalar: a finite value, a signed infinity, or NaN. -/
inductive PFloat where
  | val : ℚ → PFloat
  | pinf : PFloat
  | ninf : PFloat
  | nan : PFloat
deriving DecidableEq, Repr

/-- IEEE division as performed by pandas: a positive finite value divided by
zero is `+inf`, a negative one `-inf`, `0/0` is NaN, and NaN propagates. -/
def pdiv : PFloat → PFloat → PFloat
  | .val a, .val b =>
    if b = 0 then (if 0 < a then .pinf else if a < 0 then .ninf else .nan)
    else .val (a / b)
  | .val _, .pinf => .val 0
  | .val _, .ninf => .val 0
  | .pinf, .val b => if 0 ≤ b then .pinf else .ninf
  | .ninf, .val b => if 0 ≤ b then .ninf else .pinf
  | _, _ => .nan

/-- `Series.clip(upper=m)`: values above `m` (including `+inf`) become `m`;
NaN is left as NaN. -/
def clipUpper : PFloat → ℚ → PFloat
  | .val a, m => .val (min a m)
  | .pinf, m => .val m
  | .ninf, _ => .ninf
  | .nan, _ => .nan

/-- `Series.fillna(c)`: NaN becomes the fill value, everything else is kept. -/
def fillna : PFloat → ℚ → PFloat
  | .nan, c => .val c
  | x, _ => x

/-- IEEE comparison `x <= y` (false whenever either side is NaN). -/
def pfLe : PFloat → PFloat → Bool
  | .nan, _ => false
  | _, .nan => false
  | .ninf, _ => true
  | .val _, .pinf => true
  | .pinf, .pinf => true
  | .val a, .val b => decide (a ≤ b)
  | .pinf, .val _ => false
  | .val _, .ninf => false
  | .pinf, .ninf => false

/-- `vol_df['leverage_factor'] = (target_volatility / realized_vol).clip(upper=max_leverage)`
applied to one entry of the realized-volatility series. -/
def leverage_factor (target_volatility max_leverage : ℚ) (vol : PFloat) : PFloat :=
  clipUpper (pdiv (.val target_volatility) vol) max_leverage

/-- The leverage step of `calculate_with_leverage` (`a.py`): the
`leverage_factor` column, and the `applied_leverage` column obtained by
`shift(lag_days)` followed by `fillna(1.0)`. -/
def calculate_with_leverage (realized_vol : List PFloat)
    (target_volatility max_leverage : ℚ) (lag_days : ℕ) :
    List PFloat × List PFloat :=
  let lf := realized_vol.map (leverage_factor target_volatility max_leverage)
  let applied := (List.range realized_vol.length).map fun t =>
    fillna (if t < lag_days then .nan else lf.getD (t - lag_days) .nan) 1
  (lf, applied)

/-- C5: with `target_volatility = 0.055`, `max_leverage = 1`, `lag_days = 0`,
a zero realized volatility produces the defined value `max_leverage` (the
`+inf` ratio is silently clipped) and an undefined (NaN) realized volatility
produces a NaN leverage factor that `fillna` silently turns into `1.0` — no
error of any kind is raised for that date. -/
theorem calculate_with_leverage_counterexample :
    calculate_with_leverage [.val 0, .nan] (11/200) 1 0 =
      ([.val 1, .nan], [.val 1, .val 1]) := by
  norm_num [calculate_with_leverage, leverage_factor, pdiv, clipUpper, fillna,
    List.range_succ]

/-- C5 (amended): the source raises no error when realized volatility is zero,
negative, or undefined: a zero volatility yields `target/0 = +inf`, clipped to
`max_leverage`; an undefined (NaN) volatility yields a NaN leverage factor
(later silently filled); a negative volatility yields the negative ratio
`target/vol` unchanged by the upper clip. -/
theorem leverage_factor_no_error (target_volatility max_leverage : ℚ)
    (ht : 0 < target_volatility) (hm : 0 ≤ max_leverage) :
    leverage_factor target_volatility max_leverage (.val 0) = .val max_leverage ∧
    leverage_factor target_volatility max_leverage .nan = .nan ∧
    ∀ v : ℚ, v < 0 →
      leverage_factor target_volatility max_leverage (.val v) =
        .val (target_volatility / v) := by
  refine ⟨?_, rfl, ?_⟩
  · simp [leverage_factor, pdiv, clipUpper, ht]
  · intro v hv
    have hvne : v ≠ 0 := ne_of_lt hv
    have hneg : target_volatility / v < 0 := div_neg_of_pos_of_neg ht hv
    simp [leverage_factor, pdiv, clipUpper, hvne]
    exact le_trans hneg.le hm

/-- Witness for the amended C5 theorem at `target = 0.055`, `max = 1`. -/
theorem leverage_factor_no_error_witness :
    (0 < (11/200 : ℚ)) ∧ (0 ≤ (1 : ℚ)) ∧
    leverage_factor (11/200) 1 (.val 0) = .val 1 :=
  ⟨by norm_num, by norm_num,
   (leverage_factor_no_error (11/200) 1 (by norm_num) (by norm_num)).1⟩

theorem getD_map_leverage (target_volatility max_leverage : ℚ)
    (l : List PFloat) (t : ℕ) :
    (l.map (leverage_factor target_volatility max_leverage)).getD t .nan =
      leverage_factor target_volatility max_leverage (l.getD t .nan) := by
  induction l generalizing t with
  | nil => cases t <;> rfl
  | cons x xs ih => cases t with
    | zero => rfl
    | succ j => simpa [List.getD_cons_succ] using ih j

/-- C6: every leverage factor computed from a non-negative finite realized
volatility is the finite value `min(max_leverage, target_volatility / vol)`
when the volatility is positive and `max_leverage` when it is zero (the `+inf`
ratio is clipped to the cap); hence it is always `<= max_leverage`, with
equality exactly when `target_volatility / realized_vol >= max_leverage` in
the IEEE ordering. -/
theorem calculate_with_leverage_cap (realized_vol : List PFloat)
    (target_volatility max_leverage : ℚ) (lag_days : ℕ) (t : ℕ) (v : ℚ)
    (ht : 0 < target_volatility)
    (hv : realized_vol.getD t .nan = .val v) (hv0 : 0 ≤ v) :
    ∃ l : ℚ,
      (calculate_with_leverage realized_vol target_volatility max_leverage
          lag_days).1.getD t .nan = .val l ∧
      (0 < v → l = min max_leverage (target_volatility / v)) ∧
      (v = 0 → l = max_leverage) ∧
      l ≤ max_leverage ∧
      (l = max_leverage ↔
        pfLe (.val max_leverage) (pdiv (.val target_volatility) (.val v)) = true) := by
  have hmap := getD_map_leverage target_volatility max_leverage realized_vol t
  rw [hv] at hmap
  rcases eq_or_lt_of_le hv0 with hz | hpos
  · refine ⟨max_leverage, ?_, fun h0 => absurd (hz ▸ h0) (lt_irrefl v),
      fun _ => rfl, le_refl _, ?_⟩
    · show (calculate_with_leverage realized_vol target_volatility max_leverage
          lag_days).1.getD t .nan = .val max_leverage
      rw [show (calculate_with_leverage realized_vol target_volatility max_leverage
          lag_days).1 = realized_vol.map (leverage_factor target_volatility max_leverage)
        from rfl]
      rw [hmap]
      simp [leverage_factor, pdiv, clipUpper, ← hz, ht]
    · simp [pdiv, ← hz, ht, pfLe]
  · have hvne : v ≠ 0 := ne_of_gt hpos
    refine ⟨min (target_volatility / v) max_leverage, ?_,
      fun _ => min_comm _ _, fun h0 => absurd h0 hvne, min_le_right _ _, ?_⟩
    · show (calculate_with_leverage realized_vol target_volatility max_leverage
          lag_days).1.getD t .nan = .val (min (target_volatility / v) max_leverage)
      rw [show (calculate_with_leverage realized_vol target_volatility max_leverage
          lag_days).1 = realized_vol.map (leverage_factor target_volatility max_leverage)
        from rfl]
      rw [hmap]
      simp [leverage_factor, pdiv, clipUpper, hvne]
    · simp [pdiv, hvne, pfLe, min_eq_right_iff]

/-- Witness for C6 at `realized_vol = [0.1]`, `target = 0.055`, `max = 1`. -/
theorem calculate_with_leverage_cap_witness :
    (([.val (1/10)] : List PFloat).getD 0 .nan = .val (1/10)) ∧
    ∃ l : ℚ,
      (calculate_with_leverage [.val (1/10)] (11/200) 1 2).1.getD 0 .nan = .val l ∧
      (0 < (1/10 : ℚ) → l = min 1 ((11/200) / (1/10 : ℚ))) ∧
      ((1/10 : ℚ) = 0 → l = 1) ∧
      l ≤ 1 ∧
      (l = 1 ↔ pfLe (.val 1) (pdiv (.val (11/200)) (.val (1/10))) = true) :=
  ⟨rfl, calculate_with_leverage_cap [.val (1/10)] (11/200) 1 2 0 (1/10)
    (by norm_num) rfl (by norm_num)⟩

-- Frame effects: `calculate_portfolio_value` writes a column into the
-- caller's DataFrame when `fee_price` is absent.

/-- A row of the portfolio DataFrame.  `position_value` holds this row's entry
of the `position_value` column; `none` when that column does not exist. -/
structure PortRow where
  date : ℤ
  symbol : String
  weight : ℚ
  price_per_share : ℚ
  number_of_shares : ℚ
  fee_price : ℚ
  position_value : Option ℚ
deriving DecidableEq, Repr

/-- The portfolio DataFrame: its rows plus whether the `fee_price` column is
present (`'fee_price' in df.columns`). -/
structure PortFrame where
  hasFeePrice : Bool
  rows : List PortRow
deriving DecidableEq, Repr

/-- Insert a date into an ascending list of distinct dates (the sorted unique
group keys produced by `groupby('date')`). -/
def insertUniqueAsc (d : ℤ) : List ℤ → List ℤ
  | [] => [d]
  | x :: xs =>
    if d < x then d :: x :: xs
    else if d = x then x :: xs
    else x :: insertUniqueAsc d xs

/-- The sorted unique dates of a row list. -/
def uniqueDatesAsc (rows : List PortRow) : List ℤ :=
  rows.foldr (fun r acc => insertUniqueAsc r.date acc) []

/-- `df.groupby('date')['fee_price'].first()` as a date-indexed series. -/
def groupFirstFee (rows : List PortRow) : List (ℤ × ℚ) :=
  (uniqueDatesAsc rows).map fun d =>
    (d, ((rows.find? fun r => r.date = d).map fun r => r.fee_price).getD 0)

/-- `df.groupby('date')['position_value'].sum()` as a date-indexed series. -/
def groupSumPositionValue (rows : List PortRow) : List (ℤ × ℚ) :=
  (uniqueDatesAsc rows).map fun d =>
    (d, ((rows.filter fun r => r.date = d).map fun r => r.position_value.getD 0).sum)

/-- `calculate_portfolio_value(df)` with the caller's frame threaded through so
that the in-place assignment `df['position_value'] = df['price_per_share'] *
df['number_of_shares']` is observable: the first component is the state of the
caller's DataFrame after the call. -/
def calculate_portfolio_value (df : PortFrame) : PortFrame × List (ℤ × ℚ) :=
  if df.hasFeePrice then (df, groupFirstFee df.rows)
  else
    let rows2 := df.rows.map fun r =>
      { r with position_value := some (r.price_per_share * r.number_of_shares) }
    ({ df with rows := rows2 }, groupSumPositionValue rows2)

/-- A one-row frame without a `fee_price` column. -/
def noFeeFrame : PortFrame := ⟨false, [⟨1, "AAPL", 1, 2, 3, 0, none⟩]⟩

/-- C9: when the input frame has no `fee_price` column,
`calculate_portfolio_value` (called by `calculate_realized_volatility`) adds a
`position_value` column to the CALLER's DataFrame, so the input is not left
unmodified. -/
theorem calculate_portfolio_value_mutates_counterexample :
    (calculate_portfolio_value noFeeFrame).1 ≠ noFeeFrame := by
  intro hEq
  have h := congrArg (fun f => f.rows.map fun r => r.position_value) hEq
  norm_num [calculate_portfolio_value, noFeeFrame] at h
  exact Option.noConfusion h

/-- C9 (amended): the rescaler works on a copy — its output keeps the input's
`date` and `weight` columns unchanged, row for row — and
`calculate_portfolio_value` leaves the caller's frame untouched whenever the
`fee_price` column is present; when it is absent the `position_value` column
is written into the caller's frame. -/
theorem fresh_copy_amended (df1 : List WRow) (df2 : List Event) (df : PortFrame)
    (hfee : df.hasFeePrice = true) :
    ((rescale_weights_by_ratio_pattern df1 df2).1.map fun r => (r.date, r.weight)) =
      (df1.map fun w => (w.date, w.weight)) ∧
    (calculate_portfolio_value df).1 = df := by
  constructor
  · unfold rescale_weights_by_ratio_pattern
    rw [processEvents_fst, List.map_map, List.map_map]
    exact List.map_congr_left fun w _ => rfl
  · unfold calculate_portfolio_value
    rw [if_pos hfee]

/-- Witness for the amended C9 theorem on a one-row input and a frame that has
the `fee_price` column. -/
theorem fresh_copy_amended_witness :
    ((⟨true, []⟩ : PortFrame).hasFeePrice = true) ∧
    ((rescale_weights_by_ratio_pattern [⟨1, 10⟩] []).1.map fun r => (r.date, r.weight)) =
      (([⟨1, 10⟩] : List WRow).map fun w => (w.date, w.weight)) ∧
    (calculate_portfolio_value ⟨true, []⟩).1 = ⟨true, []⟩ :=
  ⟨rfl, (fresh_copy_amended [⟨1, 10⟩] [] ⟨true, []⟩ rfl).1,
   (fresh_copy_amended [⟨1, 10⟩] [] ⟨true, []⟩ rfl).2⟩
